import Mathlib

/-!
Verification of the semester-planner timetable core: a shallow embedding of
`timetable/models.py` and `timetable/visualize.py` (data model, presentation
builder, layout engine, renderer state machine), with theorems settling the
spec's claims about them.

Strings of the source are modelled as `List Char` (Python `str` compares and
splits by code point, which the `Char` order and list operations mirror).
Python `int` values arising in this program are non-negative, so they are
modelled as `Nat`; pixel geometry (JavaScript `number`) is modelled as `ℚ`.
-/

namespace SemesterPlanner

/-! ## String primitives (Python `str.split` and `str(int)`) -/

/-- Python `s.split(sep)` for a one-character separator: splits at every
occurrence, keeping empty pieces (`"".split('-') == ['']`). -/
def splitAll (sep : Char) : List Char → List (List Char)
  | [] => [[]]
  | c :: rest =>
    if c = sep then [] :: splitAll sep rest
    else
      match splitAll sep rest with
      | [] => [[c]]
      | p :: ps => (c :: p) :: ps

/-- Python `s.split(sep, 1)` unpacked into exactly two variables: `some` of
the pieces around the first occurrence of `sep`, `none` (a `ValueError`)
when `sep` does not occur. -/
def split1 (sep : Char) : List Char → Option (List Char × List Char)
  | [] => none
  | c :: rest =>
    if c = sep then some ([], rest)
    else (split1 sep rest).map (fun p => (c :: p.1, p.2))

/-- The value of a list of decimal digit characters, most significant first. -/
def digitsVal (cs : List Char) : Nat :=
  cs.foldl (fun a c => 10 * a + (c.toNat - 48)) 0

/-- Python `int(s)` on the strings this program feeds it (plain decimal
digit literals): `some` value when `s` is a non-empty all-digit string,
`none` (a `ValueError`) otherwise. -/
def parseNat (cs : List Char) : Option Nat :=
  if cs ≠ [] ∧ ∀ c ∈ cs, c.isDigit then some (digitsVal cs) else none

/-- Decimal digits of `n`, most significant first, via fuel-bounded division
(`n` itself is enough fuel). Helper for `natChars`. -/
def natCharsAux : Nat → Nat → List Char
  | 0, _ => []
  | _ + 1, 0 => []
  | fuel + 1, n + 1 =>
    natCharsAux fuel ((n + 1) / 10) ++ [Nat.digitChar ((n + 1) % 10)]

/-- Python `str(n)` for a non-negative integer. -/
def natChars (n : Nat) : List Char :=
  if n = 0 then ['0'] else natCharsAux n n

/-- Python `f"{n:02}"`. -/
def pad2 (n : Nat) : List Char :=
  if n < 10 then '0' :: natChars n else natChars n

/-! ## `timetable/models.py` -/

/-- `DAYS_OF_WEEK = ['H', 'K', 'SZE', 'CS', 'P']`. -/
def DAYS_OF_WEEK : List (List Char) :=
  ["H".data, "K".data, "SZE".data, "CS".data, "P".data]

/-- `class Time`: a wall-clock instant. -/
structure Time where
  hour : Nat
  minute : Nat
deriving DecidableEq

/-- `Time.from_string`: `hour_str, minute_str = value.split(':')` then
`int(...)` on both; `none` models the `ValueError`s of unpacking and of
`int`. -/
def Time.from_string (value : List Char) : Option Time :=
  match splitAll ':' value with
  | [hour_str, minute_str] =>
    (parseNat hour_str).bind fun h =>
      (parseNat minute_str).map fun m => Time.mk h m
  | _ => none

/-- `Time.to_minutes`. -/
def Time.to_minutes (t : Time) : Nat := t.hour * 60 + t.minute

/-- `__str__` of `Time`: `f"{hour:02}:{minute:02}"`. -/
def Time.toChars (t : Time) : List Char :=
  pad2 t.hour ++ ':' :: pad2 t.minute

/-- `class ClassTime`: a day code with a start and end time. -/
structure ClassTime where
  day : List Char
  start_time : Time
  end_time : Time
deriving DecidableEq

/-- `__str__` of `ClassTime`: `f"{day}:{start_time}-{end_time}"`. -/
def ClassTime.toChars (ct : ClassTime) : List Char :=
  ct.day ++ ':' :: (ct.start_time.toChars ++ '-' :: ct.end_time.toChars)

/-- `class Course`: an opaque code plus the raw time string. -/
structure Course where
  code : List Char
  time : List Char
deriving DecidableEq

/-- `Course.get_time`: split off the day at the first `':'`, check it against
`DAYS_OF_WEEK`, split the rest at `'-'` into exactly two time strings and
parse each. `none` models every `ValueError` raised on the way. -/
def Course.get_time (c : Course) : Option ClassTime :=
  match split1 ':' c.time with
  | none => none
  | some (day_part, hours_part) =>
    if day_part ∈ DAYS_OF_WEEK then
      match splitAll '-' hours_part with
      | [start_time_str, end_time_str] =>
        (Time.from_string start_time_str).bind fun st =>
          (Time.from_string end_time_str).map fun en =>
            ClassTime.mk day_part st en
      | _ => none
    else none

/-- `class Subject`. -/
structure Subject where
  name : List Char
  code : List Char
  credits : Nat
  courses : List Course
deriving DecidableEq

/-- `class Timetable`. -/
structure Timetable where
  subjects : List Subject
deriving DecidableEq

/-! ## `timetable/visualize.py` — presentation builder -/

/-- `CourseDto`: the flattened, render-ready projection of one course. -/
structure CourseDto where
  id : List Char
  subject_code : List Char
  subject_name : List Char
  subject_credits : Nat
  course_code : List Char
  day : List Char
  start_min : Nat
  end_min : Nat
  time_str : List Char
deriving DecidableEq

/-- The composite id `f"{subject.code}__{course.code}__{index}"`. -/
def mkId (subjectCode courseCode : List Char) (index : Nat) : List Char :=
  subjectCode ++ ('_' :: '_' :: (courseCode ++ ('_' :: '_' :: natChars index)))

/-- `_course_to_dto(subject, course, index)`; `none` models the propagated
`ValueError` of `course.get_time()`. -/
def course_to_dto (subject : Subject) (course : Course) (index : Nat) :
    Option CourseDto :=
  (course.get_time).map fun ct =>
    { id := mkId subject.code course.code index
      subject_code := subject.code
      subject_name := subject.name
      subject_credits := subject.credits
      course_code := course.code
      day := ct.day
      start_min := ct.start_time.to_minutes
      end_min := ct.end_time.to_minutes
      time_str := ct.toChars }

/-- One subject's slice of the flattening loop of `_build_payload`:
`for idx, course in enumerate(subject.courses)` starting at index `i`. -/
def subjectDtosAux (s : Subject) : Nat → List Course → Option (List CourseDto)
  | _, [] => some []
  | i, c :: rest =>
    (course_to_dto s c i).bind fun d =>
      (subjectDtosAux s (i + 1) rest).map fun ds => d :: ds

/-- All of one subject's `CourseDto`s, indexes counted from 0. -/
def subjectDtos (s : Subject) : Option (List CourseDto) :=
  subjectDtosAux s 0 s.courses

/-- The outer flattening loop of `_build_payload`, one list per subject. -/
def allSubjectDtos : List Subject → Option (List (List CourseDto))
  | [] => some []
  | s :: rest =>
    (subjectDtos s).bind fun ds =>
      (allSubjectDtos rest).map fun rs => ds :: rs

/-- The flat `courses` list of `_build_payload` before sorting. -/
def flattenDtos (t : Timetable) : Option (List CourseDto) :=
  (allSubjectDtos t.subjects).map List.flatten

/-- `DAYS_OF_WEEK.index(day)` (the day is always found for built DTOs). -/
def dayIndex (day : List Char) : Nat :=
  List.findIdx (fun d => decide (d = day)) DAYS_OF_WEEK

/-- The Python sort key of `_build_payload`, compared lexicographically:
`(DAYS_OF_WEEK.index(c.day), c.start_min, c.end_min, c.subject_code,
c.course_code)`. -/
def sortKey (c : CourseDto) :
    Lex (Nat × Lex (Nat × Lex (Nat × Lex (List Char × List Char)))) :=
  toLex (dayIndex c.day,
    toLex (c.start_min,
      toLex (c.end_min, toLex (c.subject_code, c.course_code))))

/-- The order `courses.sort(key=...)` sorts by. -/
def keyRel (a b : CourseDto) : Prop := sortKey a ≤ sortKey b

instance : DecidableRel keyRel := fun a b =>
  inferInstanceAs (Decidable (sortKey a ≤ sortKey b))

instance : IsTotal CourseDto keyRel :=
  ⟨fun a b => le_total (sortKey a) (sortKey b)⟩

instance : IsTrans CourseDto keyRel :=
  ⟨fun _ _ _ h1 h2 => le_trans h1 h2⟩

/-- The sorted `courses` list of `_build_payload` (a stable sort by
`sortKey`, as Python's `list.sort`). -/
def build_payload_courses (t : Timetable) : Option (List CourseDto) :=
  (flattenDtos t).map (List.insertionSort keyRel)

/-- `_compute_time_bounds(courses)`. -/
def compute_time_bounds : List CourseDto → Nat × Nat
  | [] => (8 * 60, 20 * 60)
  | c :: rest =>
    let min_start := rest.foldl (fun a x => min a x.start_min) c.start_min
    let max_end := rest.foldl (fun a x => max a x.end_min) c.end_min
    let min_start := min_start / 60 * 60
    let max_end := (max_end + 59) / 60 * 60
    let min_start := max (6 * 60) min_start
    let max_end := min (22 * 60) max_end
    if max_end ≤ min_start then (min_start, min_start + 60)
    else (min_start, max_end)

/-! ## `timetable/visualize.py` — embedded page script: layout engine -/

/-- `<canvas id="tt" width="1100" height="720">`. -/
def canvasWidth : Nat := 1100

/-- The interactive canvas height. -/
def canvasHeight : Nat := 720

/-- `layout.pad`. -/
def layoutPad : ℚ := 18

/-- `layout.headerH`. -/
def layoutHeaderH : ℚ := 36

/-- `layout.timeColW`. -/
def layoutTimeColW : ℚ := 70

/-- `layout.dayColW`. -/
def layoutDayColW : ℚ := 190

/-- `layout.blockPad`. -/
def layoutBlockPad : ℚ := 6

/-- `canvas.height - layout.pad*2 - layout.headerH`. -/
def usableH : ℚ := (canvasHeight : ℚ) - layoutPad * 2 - layoutHeaderH

/-- `minuteToY(minute)`, with the display window passed explicitly (the page
script reads it from the globals `START_MIN` and `END_MIN`). -/
def minuteToY (startMin endMin m : ℚ) : ℚ :=
  layoutPad + layoutHeaderH + (m - startMin) / (endMin - startMin) * usableH

/-- `yToMinute(y)`. -/
def yToMinute (startMin endMin y : ℚ) : ℚ :=
  startMin + (y - (layoutPad + layoutHeaderH)) / usableH * (endMin - startMin)

/-- The comparator `(a, b) => a.startMin - b.startMin || a.endMin - b.endMin`
of `computeDayLanes`, as the total preorder it sorts by. -/
def laneOrder (a b : CourseDto) : Prop :=
  a.start_min < b.start_min ∨
    (a.start_min = b.start_min ∧ a.end_min ≤ b.end_min)

instance : DecidableRel laneOrder := fun a b =>
  inferInstanceAs (Decidable (_ ∨ _))

instance : IsTotal CourseDto laneOrder :=
  ⟨fun a b => by unfold laneOrder; omega⟩

instance : IsTrans CourseDto laneOrder :=
  ⟨fun a b c h1 h2 => by unfold laneOrder at *; omega⟩

/-- The inner scan of `computeDayLanes`: the first lane index whose tracked
end-minute is at most `s` (`c.startMin >= lanes[i]`). -/
def findLane (s : Nat) : List Nat → Option Nat
  | [] => none
  | e :: rest =>
    if e ≤ s then some 0 else (findLane s rest).map (· + 1)

/-- One course placed in a lane (before the lane count is attached). -/
structure PlacedCourse where
  course : CourseDto
  lane : Nat
deriving DecidableEq

/-- The placement loop of `computeDayLanes` over the already-sorted courses:
returns the placements in order and the final `lanes` array. -/
def placeAll : List CourseDto → List Nat → List PlacedCourse × List Nat
  | [], lanes => ([], lanes)
  | c :: rest, lanes =>
    match findLane c.start_min lanes with
    | some i =>
      let r := placeAll rest (lanes.set i c.end_min)
      (PlacedCourse.mk c i :: r.1, r.2)
    | none =>
      let r := placeAll rest (lanes ++ [c.end_min])
      (PlacedCourse.mk c lanes.length :: r.1, r.2)

/-- One entry of the list `computeDayLanes` returns:
`{course, lane, laneCount}`. -/
structure LanePlaced where
  course : CourseDto
  lane : Nat
  laneCount : Nat
deriving DecidableEq

/-- `lanes.length || 1` for the final lanes array of a day. -/
def dayLaneCount (dayCourses : List CourseDto) : Nat :=
  let r := placeAll (List.insertionSort laneOrder dayCourses) []
  if r.2.length = 0 then 1 else r.2.length

/-- `computeDayLanes(dayCourses)`. -/
def computeDayLanes (dayCourses : List CourseDto) : List LanePlaced :=
  let r := placeAll (List.insertionSort laneOrder dayCourses) []
  let laneCount := if r.2.length = 0 then 1 else r.2.length
  r.1.map fun p => LanePlaced.mk p.course p.lane laneCount

/-! ## `timetable/visualize.py` — embedded page script: renderer and
interaction state -/

/-- One entry of the `hitboxes` array: `{id, x, y, w, h}`. -/
structure Box where
  id : List Char
  x : ℚ
  y : ℚ
  w : ℚ
  h : ℚ
deriving DecidableEq

/-- One session block as `drawCourses` draws it. -/
structure Block where
  id : List Char
  x : ℚ
  y : ℚ
  w : ℚ
  h : ℚ
  isSelected : Bool
deriving DecidableEq

/-- The page's mutable state: the payload data (`DATA.courses`,
`START_MIN`, `END_MIN`) plus the UI state (`visibleSubjects`,
`selectedCourseIds`, `hitboxes`, the status bar). -/
structure AppState where
  courses : List CourseDto
  startMin : ℚ
  endMin : ℚ
  visibleSubjects : List (List Char)
  selectedCourseIds : List (List Char)
  hitboxes : List Box
  statusText : List Char
  statusDanger : Bool
deriving DecidableEq

/-- The block geometry of one placed course inside day column `di`, exactly
as the body of the loop in `drawCourses` computes it. -/
def blockOf (st : AppState) (di : Nat) (p : LanePlaced) : Block :=
  let c := p.course
  let yStart := minuteToY st.startMin st.endMin (c.start_min : ℚ)
  let yEnd := minuteToY st.startMin st.endMin (c.end_min : ℚ)
  let h := max 16 (yEnd - yStart)
  let dayX := layoutPad + layoutTimeColW + (di : ℚ) * layoutDayColW
  let laneGap : ℚ := 6
  let usableW := layoutDayColW - 2 * layoutBlockPad
  let laneW := (usableW - laneGap * ((p.laneCount : ℚ) - 1)) / (p.laneCount : ℚ)
  let x := dayX + layoutBlockPad + (p.lane : ℚ) * (laneW + laneGap)
  let yBottom := (canvasHeight : ℚ) - layoutPad
  let y := min (yBottom - 10) (yStart + 1)
  let w := max 30 laneW
  Block.mk c.id x y w h (decide (c.id ∈ st.selectedCourseIds))

/-- The candidate courses of one day column: visible-subject courses of that
day, restricted to the selection set in export mode. -/
def dayCoursesFor (st : AppState) (exportMode : Bool) (day : List Char) :
    List CourseDto :=
  let base := st.courses.filter fun c =>
    decide (c.day = day) && decide (c.subject_code ∈ st.visibleSubjects)
  if exportMode then
    base.filter fun c => decide (c.id ∈ st.selectedCourseIds)
  else base

/-- All blocks `drawCourses` draws, in draw order (days in `DAYS` order,
lane-placed courses within each day). -/
def drawCoursesBlocks (st : AppState) (exportMode : Bool) : List Block :=
  DAYS_OF_WEEK.enum.flatMap fun de =>
    (computeDayLanes (dayCoursesFor st exportMode de.2)).map (blockOf st de.1)

/-- `drawCourses({exportMode})`: the drawn blocks together with the new value
of the global `hitboxes` array — it is reset to `[]` first and pushed to
only when `exportMode` is false. -/
def drawCourses (st : AppState) (exportMode : Bool) : List Block × List Box :=
  let blocks := drawCoursesBlocks st exportMode
  (blocks,
    if exportMode then []
    else blocks.map fun b => Box.mk b.id b.x b.y b.w b.h)

/-- Containment test of `courseAtPoint`:
`x >= b.x && x <= b.x + b.w && y >= b.y && y <= b.y + b.h`. -/
def containsPt (b : Box) (x y : ℚ) : Prop :=
  b.x ≤ x ∧ x ≤ b.x + b.w ∧ b.y ≤ y ∧ y ≤ b.y + b.h

instance (b : Box) (x y : ℚ) : Decidable (containsPt b x y) :=
  inferInstanceAs (Decidable (_ ∧ _))

/-- `courseAtPoint(x, y)`: scan `hitboxes` from the last entry down and
return the id of the first box containing the point. -/
def courseAtPoint (hitboxes : List Box) (x y : ℚ) : Option (List Char) :=
  (hitboxes.reverse.find? fun b => decide (containsPt b x y)).map (·.id)

/-- `render()`: redraw interactively, repopulating `hitboxes` and setting
the status line. -/
def render (st : AppState) : AppState :=
  let r := drawCourses st false
  { st with
    hitboxes := r.2
    statusText :=
      "Selected classes: ".data ++ natChars st.selectedCourseIds.length
        ++ ".".data
    statusDanger := false }

/-- The export image: an offscreen canvas of the given size holding the
export-mode render (`off.toDataURL` then encodes it losslessly). -/
structure ExportImage where
  width : Nat
  height : Nat
  blocks : List Block
deriving DecidableEq

/-- The `exportBtn` click handler: with an empty selection set only a danger
status message; otherwise a grid-plus-export-mode-courses render into an
offscreen canvas sized like the interactive one. The global `hitboxes`
array ends up as `drawCourses` (called with `exportMode: true`) leaves it. -/
def exportSelection (st : AppState) : Option ExportImage × AppState :=
  if st.selectedCourseIds.isEmpty then
    (none,
      { st with
        statusText := "Nothing selected to export.".data
        statusDanger := true })
  else
    let r := drawCourses st true
    (some (ExportImage.mk canvasWidth canvasHeight r.1),
      { st with
        hitboxes := r.2
        statusText := "Exported PNG.".data
        statusDanger := false })

/-! ## Concrete fixtures used by witnesses and counterexamples -/

/-- A session record 08:10–09:05 on day CS (scenario 4 of the spec). -/
def sampleSession : CourseDto :=
  CourseDto.mk [] [] [] 0 [] "CS".data 490 545 []

/-- A well-formed subject with one course on CS 10:15–12:00. -/
def subjGood : Subject :=
  Subject.mk "N".data "A".data 1 [Course.mk "B".data "CS:10:15-12:00".data]

/-- A well-formed one-subject timetable. -/
def tGood : Timetable := Timetable.mk [subjGood]

/-- The one `CourseDto` the presentation builder derives from `tGood`. -/
def dtoGood : CourseDto :=
  CourseDto.mk "A__B__0".data "A".data "N".data 1 "B".data "CS".data
    615 720 "CS:10:15-12:00".data

/-- Two subjects with distinct codes (`"A"` and `"A__B"`) whose composite
session ids nevertheless both come out as `"A__B__C__0"`. -/
def tColl : Timetable :=
  Timetable.mk
    [Subject.mk "N1".data "A".data 1
        [Course.mk "B__C".data "CS:10:15-12:00".data],
      Subject.mk "N2".data "A__B".data 2
        [Course.mk "C".data "CS:10:15-12:00".data]]

/-- An interactive state: one visible course, selected, with a hitbox from
the last interactive render. -/
def st0 : AppState :=
  AppState.mk [dtoGood] 480 1200 ["A".data] ["A__B__0".data]
    [Box.mk "A__B__0".data 100 100 50 40] "Ready.".data false

/-- The same state with nothing selected. -/
def stEmptySel : AppState :=
  AppState.mk [dtoGood] 480 1200 ["A".data] []
    [Box.mk "A__B__0".data 100 100 50 40] "Ready.".data false

/-- The digit-string side condition under which `Time.from_string` parses a
component: non-empty and all decimal digits. -/
def goodDigits (cs : List Char) : Prop :=
  cs ≠ [] ∧ ∀ c ∈ cs, c.isDigit = true

instance : DecidablePred goodDigits := fun _ =>
  inferInstanceAs (Decidable (_ ∧ _))

/-! ## Theorems -/

/-- Claim C3: the display time window is 08:00–20:00 for an empty course
list; it always satisfies `windowEnd > windowStart`; and a single session
08:10–09:05 yields exactly the window 08:00–10:00 (floor to the hour below,
ceil to the hour above). -/
theorem compute_time_bounds_spec :
    compute_time_bounds [] = (8 * 60, 20 * 60)
    ∧ (∀ cs : List CourseDto,
        (compute_time_bounds cs).1 < (compute_time_bounds cs).2)
    ∧ compute_time_bounds [sampleSession] = (480, 600) := by
  refine ⟨rfl, ?_, by decide⟩
  intro cs
  cases cs with
  | nil => decide
  | cons c rest =>
    simp only [compute_time_bounds]
    split <;> simp <;> omega

/-- Claim C6: with a display window `startMin < endMin`, `minuteToY` is
strictly monotonic and `yToMinute` inverts it exactly (over `ℚ`). -/
theorem minuteToY_strictMono_and_inverse (s e : ℚ) (h : s < e) :
    (∀ m1 m2 : ℚ, m1 < m2 → minuteToY s e m1 < minuteToY s e m2)
    ∧ (∀ m : ℚ, yToMinute s e (minuteToY s e m) = m) := by
  have hes : (0 : ℚ) < e - s := by linarith
  have hu : usableH = 648 := by
    norm_num [usableH, canvasHeight, layoutPad, layoutHeaderH]
  constructor
  · intro m1 m2 hm
    unfold minuteToY
    rw [hu]
    have hdiv : (m1 - s) / (e - s) < (m2 - s) / (e - s) := by
      apply div_lt_div_of_pos_right ?_ hes
      linarith
    have := mul_lt_mul_of_pos_right hdiv (show (0 : ℚ) < 648 by norm_num)
    linarith
  · intro m
    unfold yToMinute minuteToY
    rw [hu]
    have hne : e - s ≠ 0 := ne_of_gt hes
    field_simp
    ring

/-- Witness for claim C6 at the concrete window 08:00–20:00. -/
theorem minuteToY_strictMono_and_inverse_witness :
    minuteToY 480 1200 500 < minuteToY 480 1200 600
    ∧ yToMinute 480 1200 (minuteToY 480 1200 490) = 490 := by
  have h := minuteToY_strictMono_and_inverse 480 1200 (by norm_num)
  exact ⟨h.1 500 600 (by norm_num), h.2 490⟩

/-- Claim C7: `courseAtPoint` scans the hitboxes in reverse draw order, so a
point inside two overlapping boxes drawn A-then-B (with nothing containing
the point drawn after B) resolves to B's id, and a point inside no box
resolves to none. -/
theorem courseAtPoint_topmost :
    (∀ (l1 l2 l3 : List Box) (A B : Box) (x y : ℚ),
      containsPt A x y → containsPt B x y →
      (∀ C ∈ l3, ¬ containsPt C x y) →
      courseAtPoint (l1 ++ A :: (l2 ++ B :: l3)) x y = some B.id)
    ∧ (∀ (boxes : List Box) (x y : ℚ),
      (∀ C ∈ boxes, ¬ containsPt C x y) →
      courseAtPoint boxes x y = none) := by
  constructor
  · intro l1 l2 l3 A B x y hA hB h3
    unfold courseAtPoint
    have hrev : (l1 ++ A :: (l2 ++ B :: l3)).reverse
        = l3.reverse ++ B :: (l2.reverse ++ A :: l1.reverse) := by
      simp [List.reverse_append]
    rw [hrev, List.find?_append]
    have h3' :
        List.find? (fun b => decide (containsPt b x y)) l3.reverse = none := by
      rw [List.find?_eq_none]
      intro C hC
      simpa using h3 C (List.mem_reverse.mp hC)
    rw [h3']
    have hBtrue : (decide (containsPt B x y)) = true := by simpa using hB
    simp [List.find?_cons, hBtrue]
  · intro boxes x y h
    unfold courseAtPoint
    have hnone :
        List.find? (fun b => decide (containsPt b x y)) boxes.reverse = none := by
      rw [List.find?_eq_none]
      intro C hC
      simpa using h C (List.mem_reverse.mp hC)
    rw [hnone]
    rfl

/-! ### String-splitting lemmas for claim C2 -/

theorem splitAll_not_mem {sep : Char} {xs : List Char} (h : sep ∉ xs) :
    splitAll sep xs = [xs] := by
  induction xs with
  | nil => rfl
  | cons c rest ih =>
    have hc : ¬ c = sep := fun e => h (by rw [e]; exact List.mem_cons_self _ _)
    have hrest : sep ∉ rest := fun hm => h (List.mem_cons_of_mem _ hm)
    rw [splitAll, if_neg hc, ih hrest]

theorem splitAll_append {sep : Char} {xs ys : List Char} (h : sep ∉ xs) :
    splitAll sep (xs ++ sep :: ys) = xs :: splitAll sep ys := by
  induction xs with
  | nil => simp [splitAll]
  | cons c rest ih =>
    have hc : ¬ c = sep := fun e => h (by rw [e]; exact List.mem_cons_self _ _)
    have hrest : sep ∉ rest := fun hm => h (List.mem_cons_of_mem _ hm)
    rw [List.cons_append, splitAll, if_neg hc, ih hrest]

theorem split1_append {sep : Char} {xs ys : List Char} (h : sep ∉ xs) :
    split1 sep (xs ++ sep :: ys) = some (xs, ys) := by
  induction xs with
  | nil => simp [split1]
  | cons c rest ih =>
    have hc : ¬ c = sep := fun e => h (by rw [e]; exact List.mem_cons_self _ _)
    have hrest : sep ∉ rest := fun hm => h (List.mem_cons_of_mem _ hm)
    rw [List.cons_append, split1, if_neg hc, ih hrest]
    rfl

theorem isDigit_ne {c d : Char} (h : c.isDigit = true) (hd : d.isDigit = false) :
    c ≠ d := by
  intro e
  rw [e, hd] at h
  exact Bool.false_ne_true h

theorem goodDigits_colon_not_mem {cs : List Char} (h : goodDigits cs) :
    ':' ∉ cs :=
  fun hm => isDigit_ne (h.2 _ hm) (by decide) rfl

theorem goodDigits_dash_not_mem {cs : List Char} (h : goodDigits cs) :
    '-' ∉ cs :=
  fun hm => isDigit_ne (h.2 _ hm) (by decide) rfl

theorem parseNat_good {cs : List Char} (h : goodDigits cs) :
    parseNat cs = some (digitsVal cs) := by
  unfold parseNat
  rw [if_pos ⟨h.1, h.2⟩]

theorem from_string_good {h m : List Char}
    (hh : goodDigits h) (hm : goodDigits m) :
    Time.from_string (h ++ ':' :: m) = some (Time.mk (digitsVal h) (digitsVal m)) := by
  unfold Time.from_string
  rw [splitAll_append (goodDigits_colon_not_mem hh),
    splitAll_not_mem (goodDigits_colon_not_mem hm)]
  dsimp only
  rw [parseNat_good hh, parseNat_good hm]
  rfl

theorem days_no_colon : ∀ d ∈ DAYS_OF_WEEK, ':' ∉ d := by decide

/-- Claim C2 (amended): `Course.get_time` fails when the day code (the text
before the first `':'`) is not a recognized day, and succeeds on every
record `day:h1:m1-h2:m2` with a recognized day and non-empty all-digit time
components — including those with `start >= end`, which are NOT rejected. -/
theorem get_time_spec :
    (∀ (code day rest : List Char), ':' ∉ day → day ∉ DAYS_OF_WEEK →
      Course.get_time (Course.mk code (day ++ ':' :: rest)) = none)
    ∧ (∀ (code day h1 m1 h2 m2 : List Char), day ∈ DAYS_OF_WEEK →
      goodDigits h1 → goodDigits m1 → goodDigits h2 → goodDigits m2 →
      Course.get_time
          (Course.mk code
            (day ++ ':' :: (h1 ++ ':' :: (m1 ++ '-' :: (h2 ++ ':' :: m2)))))
        = some (ClassTime.mk day
            (Time.mk (digitsVal h1) (digitsVal m1))
            (Time.mk (digitsVal h2) (digitsVal m2)))) := by
  constructor
  · intro code day rest hcolon hday
    unfold Course.get_time
    rw [split1_append hcolon]
    simp [hday]
  · intro code day h1 m1 h2 m2 hday hh1 hm1 hh2 hm2
    have hcolon : ':' ∉ day := days_no_colon day hday
    unfold Course.get_time
    rw [split1_append hcolon]
    simp only [hday, if_true]
    have hassoc :
        h1 ++ ':' :: (m1 ++ '-' :: (h2 ++ ':' :: m2))
          = (h1 ++ ':' :: m1) ++ '-' :: (h2 ++ ':' :: m2) := by
      simp
    have hdash1 : '-' ∉ h1 ++ ':' :: m1 := by
      intro hm
      rcases List.mem_append.mp hm with hx | hx
      · exact goodDigits_dash_not_mem hh1 hx
      · rcases List.mem_cons.mp hx with e | hx'
        · exact absurd e.symm (by decide)
        · exact goodDigits_dash_not_mem hm1 hx'
    have hdash2 : '-' ∉ h2 ++ ':' :: m2 := by
      intro hm
      rcases List.mem_append.mp hm with hx | hx
      · exact goodDigits_dash_not_mem hh2 hx
      · rcases List.mem_cons.mp hx with e | hx'
        · exact absurd e.symm (by decide)
        · exact goodDigits_dash_not_mem hm2 hx'
    rw [hassoc, splitAll_append hdash1, splitAll_not_mem hdash2]
    dsimp only
    rw [from_string_good hh1 hm1, from_string_good hh2 hm2]
    rfl

/-- Counterexample for claim C2 as stated: the record `CS:12:00-10:00` has
`start >= end` yet `Course.get_time` accepts it and returns the inverted
range instead of failing. -/
theorem get_time_accepts_inverted :
    Course.get_time (Course.mk "C1".data "CS:12:00-10:00".data)
        = some (ClassTime.mk "CS".data (Time.mk 12 0) (Time.mk 10 0))
    ∧ (Time.mk 10 0).to_minutes ≤ (Time.mk 12 0).to_minutes := by decide

/-- Witness for claim C2's amended theorem at the record `CS:12:00-10:00`:
a record whose start is not strictly before its end still constructs. -/
theorem get_time_spec_witness :
    Course.get_time
        (Course.mk "C1".data
          ("CS".data ++ ':' :: ("12".data ++ ':' :: ("00".data ++ '-' ::
            ("10".data ++ ':' :: "00".data)))))
      = some (ClassTime.mk "CS".data (Time.mk 12 0) (Time.mk 10 0)) := by
  have h := get_time_spec.2 "C1".data "CS".data "12".data "00".data
    "10".data "00".data (by decide) (by decide) (by decide) (by decide) (by decide)
  simpa using h

/-! ### Lane-assignment lemmas for claims C1 and C10 -/

theorem findLane_spec {s : Nat} {lanes : List Nat} {i : Nat}
    (h : findLane s lanes = some i) :
    ∃ hlt : i < lanes.length, lanes[i] ≤ s := by
  induction lanes generalizing i with
  | nil => simp [findLane] at h
  | cons e rest ih =>
    rw [findLane] at h
    by_cases he : e ≤ s
    · rw [if_pos he] at h
      cases h
      exact ⟨by simp, he⟩
    · rw [if_neg he] at h
      cases hfr : findLane s rest with
      | none => rw [hfr] at h; simp at h
      | some j =>
        rw [hfr] at h
        have h' : j + 1 = i := by simpa using h
        subst h'
        obtain ⟨hj, hle⟩ := ih hfr
        exact ⟨by simpa using Nat.succ_lt_succ hj, by simpa using hle⟩

theorem placeAll_mem :
    ∀ (rem : List CourseDto) (lanes : List Nat) (p : PlacedCourse),
      p ∈ (placeAll rem lanes).1 → p.course ∈ rem := by
  intro rem
  induction rem with
  | nil => intro lanes p hp; simp [placeAll] at hp
  | cons c rest ih =>
    intro lanes p hp
    rcases hfl : findLane c.start_min lanes with _ | i
    · simp only [placeAll, hfl] at hp
      rcases List.mem_cons.mp hp with rfl | hp'
      · exact List.mem_cons_self _ _
      · exact List.mem_cons_of_mem _ (ih _ _ hp')
    · simp only [placeAll, hfl] at hp
      rcases List.mem_cons.mp hp with rfl | hp'
      · exact List.mem_cons_self _ _
      · exact List.mem_cons_of_mem _ (ih _ _ hp')

theorem placeAll_invariant :
    ∀ (rem : List CourseDto) (lanes : List Nat),
      rem.Pairwise (fun a b => a.start_min ≤ b.start_min) →
      ((placeAll rem lanes).1.Pairwise fun p q =>
          p.lane = q.lane → p.course.end_min ≤ q.course.start_min)
      ∧ (∀ p ∈ (placeAll rem lanes).1,
          ∀ hlt : p.lane < lanes.length, lanes[p.lane] ≤ p.course.start_min) := by
  intro rem
  induction rem with
  | nil =>
    intro lanes _
    constructor
    · simp [placeAll]
    · simp [placeAll]
  | cons c rest ih =>
    intro lanes hsorted
    rw [List.pairwise_cons] at hsorted
    obtain ⟨hhead, htail⟩ := hsorted
    rcases hfl : findLane c.start_min lanes with _ | i
    · -- no lane fits: a new lane is appended at index `lanes.length`
      obtain ⟨ihP, ihI⟩ := ih (lanes ++ [c.end_min]) htail
      have hlen : (lanes ++ [c.end_min]).length = lanes.length + 1 := by simp
      constructor
      · simp only [placeAll, hfl]
        rw [List.pairwise_cons]
        refine ⟨?_, ihP⟩
        intro q hq hlane
        dsimp only at hlane ⊢
        have hq' : q.lane = lanes.length := hlane.symm
        have hq1 : q.lane < (lanes ++ [c.end_min]).length := by omega
        have hget := ihI q hq hq1
        rw [List.getElem_concat_length _ _ _ hq'] at hget
        exact hget
      · simp only [placeAll, hfl]
        intro p hp hplt
        rcases List.mem_cons.mp hp with rfl | hp'
        · dsimp only at hplt
          exact absurd hplt (lt_irrefl _)
        · have hplt2 : p.lane < (lanes ++ [c.end_min]).length := by omega
          have hget := ihI p hp' hplt2
          rwa [List.getElem_append_left hplt] at hget
    · -- the first fitting lane `i` is reused
      obtain ⟨hilt, hile⟩ := findLane_spec hfl
      obtain ⟨ihP, ihI⟩ := ih (lanes.set i c.end_min) htail
      have hlen : (lanes.set i c.end_min).length = lanes.length :=
        List.length_set ..
      constructor
      · simp only [placeAll, hfl]
        rw [List.pairwise_cons]
        refine ⟨?_, ihP⟩
        intro q hq hlane
        dsimp only at hlane ⊢
        have hq' : q.lane = i := hlane.symm
        have hq1 : q.lane < (lanes.set i c.end_min).length := by omega
        have hget := ihI q hq hq1
        simp only [hq'] at hget
        rw [List.getElem_set_self] at hget
        exact hget
      · simp only [placeAll, hfl]
        intro p hp hplt
        rcases List.mem_cons.mp hp with rfl | hp'
        · dsimp only at hplt ⊢
          exact hile
        · have hplt2 : p.lane < (lanes.set i c.end_min).length := by omega
          have hget := ihI p hp' hplt2
          by_cases hpi : p.lane = i
          · have hcp : c.start_min ≤ p.course.start_min :=
              hhead _ (placeAll_mem _ _ _ hp')
            have hli : lanes[p.lane] ≤ c.start_min := by
              simp only [hpi]
              exact hile
            exact le_trans hli hcp
          · rwa [List.getElem_set_ne (fun e => hpi e.symm)] at hget

theorem placeAll_lane_lt :
    ∀ (rem : List CourseDto) (lanes : List Nat),
      (∀ p ∈ (placeAll rem lanes).1, p.lane < (placeAll rem lanes).2.length)
      ∧ lanes.length ≤ (placeAll rem lanes).2.length := by
  intro rem
  induction rem with
  | nil => intro lanes; constructor <;> simp [placeAll]
  | cons c rest ih =>
    intro lanes
    rcases hfl : findLane c.start_min lanes with _ | i
    · obtain ⟨ihB, ihL⟩ := ih (lanes ++ [c.end_min])
      have hlen : (lanes ++ [c.end_min]).length = lanes.length + 1 := by simp
      constructor
      · simp only [placeAll, hfl]
        intro p hp
        rcases List.mem_cons.mp hp with rfl | hp'
        · dsimp only
          omega
        · exact ihB p hp'
      · simp only [placeAll, hfl]
        omega
    · obtain ⟨hilt, _⟩ := findLane_spec hfl
      obtain ⟨ihB, ihL⟩ := ih (lanes.set i c.end_min)
      have hlen : (lanes.set i c.end_min).length = lanes.length :=
        List.length_set ..
      constructor
      · simp only [placeAll, hfl]
        intro p hp
        rcases List.mem_cons.mp hp with rfl | hp'
        · dsimp only
          omega
        · exact ihB p hp'
      · simp only [placeAll, hfl]
        omega

/-- Claim C1: for every list of candidate sessions of a day, no two sessions
`computeDayLanes` assigns the same lane overlap in time: one starts at or
after the other's end. -/
theorem computeDayLanes_no_overlap :
    ∀ dayCourses : List CourseDto,
      (computeDayLanes dayCourses).Pairwise fun p q =>
        p.lane = q.lane →
          p.course.start_min ≥ q.course.end_min
            ∨ q.course.start_min ≥ p.course.end_min := by
  intro l
  simp only [computeDayLanes]
  rw [List.pairwise_map]
  have hsorted :
      (List.insertionSort laneOrder l).Pairwise
        fun a b => a.start_min ≤ b.start_min :=
    (List.sorted_insertionSort laneOrder l).imp
      (fun hab => by unfold laneOrder at hab; omega)
  have hP := (placeAll_invariant (List.insertionSort laneOrder l) [] hsorted).1
  exact hP.imp (fun h heq => Or.inr (h heq))

/-- Claim C10: `computeDayLanes` yields a lane count of at least 1 for every
input (so the per-lane width division in `drawCourses` never divides by
zero), and every placed course's lane index is below that lane count. -/
theorem computeDayLanes_lane_bounds :
    ∀ dayCourses : List CourseDto,
      1 ≤ dayLaneCount dayCourses
      ∧ ∀ p ∈ computeDayLanes dayCourses,
          p.laneCount = dayLaneCount dayCourses ∧ p.lane < p.laneCount := by
  intro l
  constructor
  · simp only [dayLaneCount]
    split <;> omega
  · intro p hp
    simp only [computeDayLanes] at hp
    rw [List.mem_map] at hp
    obtain ⟨q, hq, rfl⟩ := hp
    obtain ⟨hB, _⟩ := placeAll_lane_lt (List.insertionSort laneOrder l) []
    have hqlt := hB q hq
    constructor
    · rfl
    · simp only [dayLaneCount]
      split
      · omega
      · exact hqlt

/-! ### Decimal-rendering and composite-id lemmas for claims C8 and C9 -/

theorem digitsVal_append (xs : List Char) (c : Char) :
    digitsVal (xs ++ [c]) = 10 * digitsVal xs + (c.toNat - 48) := by
  unfold digitsVal
  rw [List.foldl_append]
  rfl

theorem digitChar_toNat {d : Nat} (h : d < 10) :
    (Nat.digitChar d).toNat = 48 + d := by
  interval_cases d <;> rfl

theorem digitsVal_natCharsAux :
    ∀ (fuel n : Nat), n ≤ fuel → digitsVal (natCharsAux fuel n) = n := by
  intro fuel
  induction fuel with
  | zero =>
    intro n h
    interval_cases n
    rfl
  | succ f ihf =>
    intro n hn
    match n with
    | 0 => rfl
    | m + 1 =>
      rw [natCharsAux, digitsVal_append]
      have hdiv : (m + 1) / 10 ≤ f := by
        have := Nat.div_lt_self (Nat.succ_pos m) (by norm_num : 1 < 10)
        omega
      rw [ihf _ hdiv]
      have hlt : (m + 1) % 10 < 10 := Nat.mod_lt _ (by norm_num)
      rw [digitChar_toNat hlt]
      omega

theorem digitsVal_natChars (n : Nat) : digitsVal (natChars n) = n := by
  unfold natChars
  split
  · simp_all
    rfl
  · exact digitsVal_natCharsAux n n le_rfl

theorem natChars_injective : Function.Injective natChars :=
  Function.LeftInverse.injective digitsVal_natChars

theorem append_uu_inj :
    ∀ {xs1 : List Char} {xs2 ys1 ys2 : List Char},
      '_' ∉ xs1 → '_' ∉ xs2 →
      xs1 ++ '_' :: '_' :: ys1 = xs2 ++ '_' :: '_' :: ys2 →
      xs1 = xs2 ∧ ys1 = ys2 := by
  intro xs1
  induction xs1 with
  | nil =>
    intro xs2 ys1 ys2 _ h2 heq
    cases xs2 with
    | nil => simpa using heq
    | cons b bs =>
      rw [List.nil_append, List.cons_append] at heq
      injection heq with hb _
      exact absurd (by rw [← hb]; exact List.mem_cons_self _ _) h2
  | cons a as ih =>
    intro xs2 ys1 ys2 h1 h2 heq
    cases xs2 with
    | nil =>
      rw [List.nil_append, List.cons_append] at heq
      injection heq with ha _
      exact absurd (by rw [ha]; exact List.mem_cons_self _ _) h1
    | cons b bs =>
      rw [List.cons_append, List.cons_append] at heq
      injection heq with hab hrest
      obtain ⟨hx, hy⟩ := ih (fun hm => h1 (List.mem_cons_of_mem _ hm))
        (fun hm => h2 (List.mem_cons_of_mem _ hm)) hrest
      exact ⟨by rw [hab, hx], hy⟩

theorem mkId_inj {s1 c1 s2 c2 : List Char} {i1 i2 : Nat}
    (hs1 : '_' ∉ s1) (hc1 : '_' ∉ c1) (hs2 : '_' ∉ s2) (hc2 : '_' ∉ c2)
    (h : mkId s1 c1 i1 = mkId s2 c2 i2) : s1 = s2 ∧ c1 = c2 ∧ i1 = i2 := by
  unfold mkId at h
  obtain ⟨hs, h'⟩ := append_uu_inj hs1 hs2 h
  obtain ⟨hc, hn⟩ := append_uu_inj hc1 hc2 h'
  exact ⟨hs, hc, natChars_injective hn⟩

theorem course_to_dto_id {s : Subject} {c : Course} {i : Nat} {d : CourseDto}
    (h : course_to_dto s c i = some d) :
    d.id = mkId s.code c.code i ∧ d.subject_code = s.code := by
  unfold course_to_dto at h
  cases hgt : c.get_time with
  | none => rw [hgt] at h; simp at h
  | some ct =>
    rw [hgt] at h
    simp only [Option.map] at h
    injection h with h
    rw [← h]
    exact ⟨rfl, rfl⟩

theorem subjectDtosAux_shape :
    ∀ (s : Subject) (cs : List Course) (i : Nat) (l : List CourseDto),
      subjectDtosAux s i cs = some l →
      ∀ d ∈ l, ∃ c ∈ cs, ∃ j, i ≤ j ∧ d.id = mkId s.code c.code j := by
  intro s cs
  induction cs with
  | nil =>
    intro i l h d hd
    simp only [subjectDtosAux] at h
    injection h with h
    rw [← h] at hd
    simp at hd
  | cons c rest ih =>
    intro i l h d hd
    rw [subjectDtosAux] at h
    cases hdto : course_to_dto s c i with
    | none => rw [hdto] at h; simp at h
    | some d0 =>
      rw [hdto] at h
      cases hrest : subjectDtosAux s (i + 1) rest with
      | none => rw [hrest] at h; simp at h
      | some ds =>
        rw [hrest] at h
        simp only [Option.bind, Option.map] at h
        injection h with h
        rw [← h] at hd
        rcases List.mem_cons.mp hd with rfl | hd'
        · exact ⟨c, List.mem_cons_self _ _, i, le_rfl,
            (course_to_dto_id hdto).1⟩
        · obtain ⟨c', hc', j, hij, hid⟩ := ih (i + 1) ds hrest d hd'
          exact ⟨c', List.mem_cons_of_mem _ hc', j, by omega, hid⟩

theorem subjectDtosAux_ids_nodup :
    ∀ (s : Subject) (cs : List Course) (i : Nat) (l : List CourseDto),
      '_' ∉ s.code → (∀ c ∈ cs, '_' ∉ c.code) →
      subjectDtosAux s i cs = some l →
      (l.map CourseDto.id).Nodup := by
  intro s cs
  induction cs with
  | nil =>
    intro i l _ _ h
    simp only [subjectDtosAux] at h
    injection h with h
    rw [← h]
    simp
  | cons c rest ih =>
    intro i l hs hcs h
    rw [subjectDtosAux] at h
    cases hdto : course_to_dto s c i with
    | none => rw [hdto] at h; simp at h
    | some d0 =>
      rw [hdto] at h
      cases hrest : subjectDtosAux s (i + 1) rest with
      | none => rw [hrest] at h; simp at h
      | some ds =>
        rw [hrest] at h
        simp only [Option.bind, Option.map] at h
        injection h with h
        rw [← h]
        rw [List.map_cons, List.nodup_cons]
        constructor
        · intro hmem
          rw [List.mem_map] at hmem
          obtain ⟨d', hd', hid⟩ := hmem
          obtain ⟨c', hc', j, hij, hid'⟩ :=
            subjectDtosAux_shape s rest (i + 1) ds hrest d' hd'
          rw [(course_to_dto_id hdto).1] at hid
          rw [hid'] at hid
          have := (mkId_inj hs (hcs c' (List.mem_cons_of_mem _ hc')) hs
            (hcs c (List.mem_cons_self _ _)) hid).2.2
          omega
        · exact ih (i + 1) ds hs
            (fun c' hc' => hcs c' (List.mem_cons_of_mem _ hc')) hrest

theorem allSubjectDtos_shape :
    ∀ (subs : List Subject) (L : List (List CourseDto)),
      allSubjectDtos subs = some L →
      ∀ d ∈ L.flatten, ∃ s ∈ subs, ∃ c ∈ s.courses, ∃ j,
        d.id = mkId s.code c.code j := by
  intro subs
  induction subs with
  | nil =>
    intro L h d hd
    simp only [allSubjectDtos] at h
    injection h with h
    rw [← h] at hd
    simp at hd
  | cons s rest ih =>
    intro L h d hd
    rw [allSubjectDtos] at h
    cases hds : subjectDtos s with
    | none => rw [hds] at h; simp at h
    | some ds =>
      rw [hds] at h
      cases hrs : allSubjectDtos rest with
      | none => rw [hrs] at h; simp at h
      | some RS =>
        rw [hrs] at h
        simp only [Option.bind, Option.map] at h
        injection h with h
        rw [← h] at hd
        rw [List.flatten_cons, List.mem_append] at hd
        rcases hd with hd | hd
        · obtain ⟨c, hc, j, _, hid⟩ :=
            subjectDtosAux_shape s s.courses 0 ds hds d hd
          exact ⟨s, List.mem_cons_self _ _, c, hc, j, hid⟩
        · obtain ⟨s', hs', c, hc, j, hid⟩ := ih RS hrs d hd
          exact ⟨s', List.mem_cons_of_mem _ hs', c, hc, j, hid⟩

theorem allSubjectDtos_ids_nodup :
    ∀ (subs : List Subject) (L : List (List CourseDto)),
      allSubjectDtos subs = some L →
      (subs.map Subject.code).Nodup →
      (∀ s ∈ subs, '_' ∉ s.code ∧ ∀ c ∈ s.courses, '_' ∉ c.code) →
      ((L.flatten).map CourseDto.id).Nodup := by
  intro subs
  induction subs with
  | nil =>
    intro L h _ _
    simp only [allSubjectDtos] at h
    injection h with h
    rw [← h]
    simp
  | cons s rest ih =>
    intro L h hcodes hfree
    rw [allSubjectDtos] at h
    cases hds : subjectDtos s with
    | none => rw [hds] at h; simp at h
    | some ds =>
      rw [hds] at h
      cases hrs : allSubjectDtos rest with
      | none => rw [hrs] at h; simp at h
      | some RS =>
        rw [hrs] at h
        simp only [Option.bind, Option.map] at h
        injection h with h
        rw [← h]
        rw [List.flatten_cons, List.map_append, List.nodup_append]
        rw [List.map_cons, List.nodup_cons] at hcodes
        have hsfree := hfree s (List.mem_cons_self _ _)
        refine ⟨?_, ?_, ?_⟩
        · exact subjectDtosAux_ids_nodup s s.courses 0 ds
            hsfree.1 hsfree.2 hds
        · exact ih RS hrs hcodes.2
            (fun s' hs' => hfree s' (List.mem_cons_of_mem _ hs'))
        · intro a ha ha'
          rw [List.mem_map] at ha ha'
          obtain ⟨d1, hd1, hid1⟩ := ha
          obtain ⟨d2, hd2, hid2⟩ := ha'
          obtain ⟨c1, hc1, j1, _, hmk1⟩ :=
            subjectDtosAux_shape s s.courses 0 ds hds d1 hd1
          obtain ⟨s2, hs2, c2, hc2, j2, hmk2⟩ :=
            allSubjectDtos_shape rest RS hrs d2 hd2
          have hfree2 := hfree s2 (List.mem_cons_of_mem _ hs2)
          have heq : mkId s.code c1.code j1 = mkId s2.code c2.code j2 := by
            rw [← hmk1, ← hmk2, hid1, hid2]
          have hcode := (mkId_inj hsfree.1 (hsfree.2 c1 hc1)
            hfree2.1 (hfree2.2 c2 hc2) heq).1
          exact hcodes.1 (hcode ▸ List.mem_map_of_mem Subject.code hs2)

/-- Claim C9 (amended): the composite session ids are unique across the
whole timetable whenever subjects are unique by subject code AND subject
and session codes contain no underscore; codes containing underscores can
make ids of distinct sessions collide. -/
theorem build_payload_ids_nodup :
    ∀ (t : Timetable) (l : List CourseDto),
      build_payload_courses t = some l →
      (t.subjects.map Subject.code).Nodup →
      (∀ s ∈ t.subjects, '_' ∉ s.code ∧ ∀ c ∈ s.courses, '_' ∉ c.code) →
      (l.map CourseDto.id).Nodup := by
  intro t l hl hcodes hfree
  unfold build_payload_courses flattenDtos at hl
  cases hall : allSubjectDtos t.subjects with
  | none => rw [hall] at hl; simp at hl
  | some L =>
    rw [hall] at hl
    simp only [Option.map, Option.map_some] at hl
    injection hl with hl
    have hflat : (L.flatten.map CourseDto.id).Nodup :=
      allSubjectDtos_ids_nodup t.subjects L hall hcodes hfree
    have hperm : l.Perm L.flatten := by
      rw [← hl]
      exact List.perm_insertionSort keyRel L.flatten
    exact (hperm.map CourseDto.id).symm.nodup hflat

/-- Counterexample for claim C9 as stated: in `tColl` the subjects are
unique by code (`"A"` and `"A__B"`), yet two distinct sessions both get the
id `"A__B__C__0"`, so the id map is not injective. -/
theorem build_payload_ids_collide :
    (tColl.subjects.map Subject.code).Nodup
    ∧ ¬ (((build_payload_courses tColl).getD []).map CourseDto.id).Nodup := by
  decide

/-- Witness for claim C9's amended theorem on the underscore-free timetable
`tGood`. -/
theorem build_payload_ids_nodup_witness :
    ([dtoGood].map CourseDto.id).Nodup :=
  build_payload_ids_nodup tGood [dtoGood] (by decide) (by decide) (by decide)

/-- Claim C8: the flattened course list is sorted by the total lexicographic
key (day ordinal, start, end, subject code, session code); it is a
permutation of the flattening; rebuilding from the same timetable yields
the same list; and the key order is total. -/
theorem build_payload_sorted :
    ∀ (t : Timetable) (l : List CourseDto),
      build_payload_courses t = some l →
      l.Sorted keyRel
      ∧ (∀ fl, flattenDtos t = some fl → l.Perm fl)
      ∧ (∀ l2, build_payload_courses t = some l2 → l2 = l)
      ∧ (∀ a b : CourseDto, keyRel a b ∨ keyRel b a) := by
  intro t l hl
  unfold build_payload_courses at hl
  cases hfl : flattenDtos t with
  | none => rw [hfl] at hl; simp at hl
  | some fl =>
    rw [hfl] at hl
    simp only [Option.map, Option.map_some] at hl
    injection hl with hl
    refine ⟨?_, ?_, ?_, fun a b => le_total (sortKey a) (sortKey b)⟩
    · rw [← hl]
      exact List.sorted_insertionSort keyRel fl
    · intro fl2 hfl2
      have hfl2' : fl = fl2 := Option.some.inj hfl2
      rw [← hl, hfl2']
      exact List.perm_insertionSort keyRel fl2
    · intro l2 h2
      unfold build_payload_courses at h2
      rw [hfl] at h2
      simp only [Option.map, Option.map_some] at h2
      injection h2 with h2
      rw [← h2, ← hl]

/-- Witness for claim C8 on the concrete timetable `tGood`. -/
theorem build_payload_sorted_witness :
    List.Sorted keyRel [dtoGood] ∧ [dtoGood].Perm [dtoGood] := by
  have h := build_payload_sorted tGood [dtoGood] (by decide)
  exact ⟨h.1, h.2.1 [dtoGood] (by decide)⟩

/-! ### Renderer lemmas for claims C4 and C5 -/

theorem computeDayLanes_course_mem {l : List CourseDto} {p : LanePlaced}
    (hp : p ∈ computeDayLanes l) : p.course ∈ l := by
  simp only [computeDayLanes] at hp
  rw [List.mem_map] at hp
  obtain ⟨q, hq, rfl⟩ := hp
  have hmem := placeAll_mem _ _ _ hq
  exact (List.perm_insertionSort laneOrder l).mem_iff.mp hmem

theorem drawCoursesBlocks_export_subset :
    ∀ (st : AppState) (b : Block),
      b ∈ drawCoursesBlocks st true → b.id ∈ st.selectedCourseIds := by
  intro st b hb
  unfold drawCoursesBlocks at hb
  rw [List.mem_flatMap] at hb
  obtain ⟨de, _, hb2⟩ := hb
  rw [List.mem_map] at hb2
  obtain ⟨p, hp, rfl⟩ := hb2
  have hmem : p.course ∈ dayCoursesFor st true de.2 :=
    computeDayLanes_course_mem hp
  unfold dayCoursesFor at hmem
  simp only [if_pos] at hmem
  rw [List.mem_filter] at hmem
  have := hmem.2
  simp only [decide_eq_true_eq] at this
  exact this

/-- Claim C5: `exportSelection` with an empty selection set exports nothing,
reports the "nothing selected" status message and leaves the view state
(visible subjects, selection, and even the hitboxes) unchanged; with a
non-empty selection set it returns an image of exactly the interactive
canvas's dimensions holding the export-mode render, in which every drawn
block is a selected session, and the visible/selection sets are unchanged. -/
theorem exportSelection_spec :
    ∀ st : AppState,
      (st.selectedCourseIds = [] →
        (exportSelection st).1 = none
        ∧ (exportSelection st).2.visibleSubjects = st.visibleSubjects
        ∧ (exportSelection st).2.selectedCourseIds = st.selectedCourseIds
        ∧ (exportSelection st).2.hitboxes = st.hitboxes
        ∧ (exportSelection st).2.statusText
            = "Nothing selected to export.".data)
      ∧ (st.selectedCourseIds ≠ [] →
        (exportSelection st).1
            = some (ExportImage.mk canvasWidth canvasHeight
                (drawCoursesBlocks st true))
        ∧ (∀ b ∈ drawCoursesBlocks st true, b.id ∈ st.selectedCourseIds)
        ∧ (exportSelection st).2.visibleSubjects = st.visibleSubjects
        ∧ (exportSelection st).2.selectedCourseIds
            = st.selectedCourseIds) := by
  intro st
  constructor
  · intro h
    have hempty : st.selectedCourseIds.isEmpty = true := by
      rw [h]; rfl
    unfold exportSelection
    rw [if_pos hempty]
    exact ⟨rfl, rfl, rfl, rfl, rfl⟩
  · intro h
    have hempty : ¬ st.selectedCourseIds.isEmpty = true := by
      cases hsel : st.selectedCourseIds with
      | nil => exact absurd hsel h
      | cons a rest => simp
    unfold exportSelection
    rw [if_neg hempty]
    exact ⟨rfl, drawCoursesBlocks_export_subset st, rfl, rfl⟩

/-- Witness for claim C5: the empty-selection branch at `stEmptySel` and the
non-empty branch at `st0`. -/
theorem exportSelection_spec_witness :
    ((exportSelection stEmptySel).1 = none
      ∧ (exportSelection stEmptySel).2.selectedCourseIds
          = stEmptySel.selectedCourseIds
      ∧ (exportSelection stEmptySel).2.visibleSubjects
          = stEmptySel.visibleSubjects)
    ∧ (exportSelection st0).1
        = some (ExportImage.mk canvasWidth canvasHeight
            (drawCoursesBlocks st0 true)) := by
  have h1 := (exportSelection_spec stEmptySel).1 rfl
  have h2 := (exportSelection_spec st0).2 (by decide)
  exact ⟨⟨h1.1, h1.2.2.1, h1.2.1⟩, h2.1⟩

/-- Claim C4 (code bug): on the concrete state `st0` the export run keeps
the visible-subjects and selection sets unchanged and pushes nothing into
the geometry cache, but it does NOT leave the hit-test geometry cache
unchanged: `drawCourses` resets the shared `hitboxes` array even in export
mode, so after `exportSelection` the previously populated cache is empty. -/
theorem exportSelection_wipes_hitboxes :
    (drawCourses st0 true).2 = []
    ∧ (exportSelection st0).2.visibleSubjects = st0.visibleSubjects
    ∧ (exportSelection st0).2.selectedCourseIds = st0.selectedCourseIds
    ∧ st0.hitboxes ≠ []
    ∧ (exportSelection st0).2.hitboxes = []
    ∧ (exportSelection st0).2.hitboxes ≠ st0.hitboxes := by
  refine ⟨rfl, rfl, rfl, by decide, rfl, by decide⟩

end SemesterPlanner
